import Mathlib

/-!
Verification of `src/resize_images.py`: a batch pipeline that surveys a
directory of PNG images for the largest dimension `S`, infers each image's
background color by peripheral sampling, and composites each image onto an
`S × S` canvas filled with that color.

External collaborators (PIL decode/encode, `Image.alpha_composite` pixel
blending, LANCZOS resampling, filesystem globbing, console I/O) are modelled
abstractly: decoding becomes a list of `Option (ℕ × ℕ)` size results, the RGB
view an image is sampled from becomes an abstract pixel function, and the
resampled content pasted onto the canvas becomes an abstract pixel function.
All arithmetic performed by the script itself (region boundaries, sampling
grids, frequency tallies, the scale/floor/offset math, loop counters, control
flow of `main`) is translated literally from the source.
-/

namespace ResizeImages

/-- An RGB color triple, as returned by `PIL.Image.getpixel` on an `RGB`
image and stored in the `samples` list (source line 82: `pixel[:3]`). -/
abbrev Color := ℕ × ℕ × ℕ

/-- The RGB view `img_to_sample` that `detect_background_color` samples from
(source lines 42–51): the original image's width and height together with a
pixel function. For an `RGBA` input the pixel function is the result of
PIL's white-compositing plus `convert('RGB')` (an external library call that
preserves the dimensions); for any other mode it is `convert('RGB')` of the
input. -/
structure SampleView where
  width : ℕ
  height : ℕ
  pix : ℕ → ℕ → Color

/-- Python `range(a, b, step)` for a positive `step`: the list
`[a, a + step, a + 2*step, ...)` of elements below `b`. -/
def pyRange (a b step : ℕ) : List ℕ :=
  (List.range ((b - a + step - 1) / step)).map (fun i => a + i * step)

/-- The eight rectangles `(x1, y1, x2, y2)` sampled by
`detect_background_color` (source lines 57–71): top, bottom, left and right
strips, then the four corner regions. -/
def regions (w h : ℕ) : List (ℕ × ℕ × ℕ × ℕ) :=
  [ (w / 4, 0, w * 3 / 4, h / 4),
    (w / 4, h * 3 / 4, w * 3 / 4, h),
    (0, h / 4, w / 4, h * 3 / 4),
    (w * 3 / 4, h / 4, w, h * 3 / 4),
    (0, 0, w / 3, h / 3),
    (w * 2 / 3, 0, w, h / 3),
    (0, h * 2 / 3, w / 3, h),
    (w * 2 / 3, h * 2 / 3, w, h) ]

/-- Sampling grid of one region (source lines 73–82): step sizes
`max 1 ((x2 - x1) // 20)` and `max 1 ((y2 - y1) // 20)`, outer loop over `y`,
inner loop over `x`, keeping only in-bounds pixels. The source's
`len(pixel) >= 3` guard is always true on an RGB view, whose pixels are
exactly triples. -/
def sampleRegion (v : SampleView) (r : ℕ × ℕ × ℕ × ℕ) : List Color :=
  let x1 := r.1
  let y1 := r.2.1
  let x2 := r.2.2.1
  let y2 := r.2.2.2
  let stepX := max 1 ((x2 - x1) / 20)
  let stepY := max 1 ((y2 - y1) / 20)
  (pyRange y1 y2 stepY).flatMap fun y =>
    (pyRange x1 x2 stepX).flatMap fun x =>
      if x < v.width ∧ y < v.height then [v.pix x y] else []

/-- The `samples` list built by `detect_background_color` (source lines
54–82): the concatenation of the grid samples of the eight regions, in
region order. -/
def samples (v : SampleView) : List Color :=
  (regions v.width v.height).flatMap (sampleRegion v)

/-- Scan a list of candidate colors keeping the first one whose count is
strictly larger than the best so far. Models the tie-breaking of
`Counter(samples).most_common(1)`: `Counter` iterates its keys in first
insertion order (first occurrence in `samples`) and the maximum over that
iteration keeps the earliest key among those with the maximal count; scanning
the whole sample list with a strict-improvement test computes the same color,
because a later duplicate of an already-seen color never strictly beats it. -/
def pickMax (cnt : Color → ℕ) : Color → List Color → Color
  | best, [] => best
  | best, c :: cs => if cnt best < cnt c then pickMax cnt c cs else pickMax cnt best cs

/-- `Counter(l).most_common(1)[0][0]` (source lines 86–88): the color with
the highest frequency in `l`, ties broken by earliest first occurrence.
The `[]` case is never used by `detect_background_color`. -/
def mostCommonColor (l : List Color) : Color :=
  match l with
  | [] => (255, 255, 255)
  | c :: cs => pickMax (fun x => l.count x) c cs

/-- `detect_background_color` (source lines 40–91) restricted to its pure
tally: if the sample list is non-empty return its most common color,
otherwise default to white `(255, 255, 255)`. -/
def detect_background_color (v : SampleView) : Color :=
  if samples v = [] then (255, 255, 255) else mostCommonColor (samples v)

/-- Index of the first occurrence of a color in a list (length of the list
when absent). -/
def firstIdx (c : Color) : List Color → ℕ
  | [] => 0
  | d :: l => if d = c then 0 else firstIdx c l + 1

/-- `find_largest_dimension` (source lines 15–38) on the list of
`get_image_size` results of the globbed files, in glob order: `none` models a
file that failed to decode (`get_image_size` returned `None`), `some (w, h)`
a successful decode. The loop keeps running maxima `max_width`, `max_height`
starting at `(0, 0)`, skipping failures, and returns
`max max_width max_height`. -/
def find_largest_dimension (sizes : List (Option (ℕ × ℕ))) : ℕ :=
  let acc := sizes.foldl
    (fun acc o =>
      match o with
      | none => acc
      | some wh => (max acc.1 wh.1, max acc.2 wh.2))
    (0, 0)
  max acc.1 acc.2

/-- `scale = min(square_size / width, square_size / height)` (source
line 118), computed here in exact rational arithmetic. On the success path of
`resize_image_to_square` both `w` and `h` are positive (a zero dimension
would raise `ZeroDivisionError`, caught by the `except` branch). -/
def scaleFor (S w h : ℕ) : ℚ :=
  min ((S : ℚ) / (w : ℚ)) ((S : ℚ) / (h : ℚ))

/-- `new_width = int(width * scale)` (source line 119). `int()` truncates
toward zero; the value is non-negative, so this is the floor. -/
def new_width (S w h : ℕ) : ℕ :=
  (⌊(w : ℚ) * scaleFor S w h⌋).toNat

/-- `new_height = int(height * scale)` (source line 120). -/
def new_height (S w h : ℕ) : ℕ :=
  (⌊(h : ℚ) * scaleFor S w h⌋).toNat

/-- `x_offset = (square_size - new_width) // 2` (source line 129). Natural
subtraction agrees with Python here because `new_width ≤ square_size` on the
success path (`new_width_le_S`). -/
def x_offset (S w h : ℕ) : ℕ :=
  (S - new_width S w h) / 2

/-- `y_offset = (square_size - new_height) // 2` (source line 130). -/
def y_offset (S w h : ℕ) : ℕ :=
  (S - new_height S w h) / 2

/-- A PIL image as produced by the success path of
`resize_image_to_square`: its mode string, its size, and its pixels. -/
structure OutImage where
  mode : String
  width : ℕ
  height : ℕ
  pix : ℕ → ℕ → Color

/-- The success path of `resize_image_to_square` (source lines 96–138) for a
source image of size `w × h`: `Image.new('RGB', (square_size, square_size),
bg_color)` (line 126) fills every pixel with `bg`, and
`square_img.paste(img_resized, (x_offset, y_offset))` (line 133) overwrites
the rectangle `[x_offset, x_offset + new_width) × [y_offset, y_offset +
new_height)` with the LANCZOS-resampled content, modelled by the abstract
pixel function `content` (the resample is an external PIL call; its size
`(new_width, new_height)` is fixed by line 123). -/
def resize_image_to_square (S w h : ℕ) (bg : Color) (content : ℕ → ℕ → Color) : OutImage :=
  { mode := "RGB"
    width := S
    height := S
    pix := fun x y =>
      if x_offset S w h ≤ x ∧ x < x_offset S w h + new_width S w h ∧
         y_offset S w h ≤ y ∧ y < y_offset S w h + new_height S w h
      then content (x - x_offset S w h) (y - y_offset S w h)
      else bg }

/-- The boolean result of `resize_image_to_square` (source lines 95–141):
the whole body runs inside `try`, returning `True` at line 138; any raised
exception (decode, resample, encode, zero dimension) is caught by the
`except` branch, which returns `False`. The per-image computation is
modelled as an `Except`: `Except.ok` when no exception was raised,
`Except.error` with the message otherwise. -/
def resize_image_outcome (r : Except String Unit) : Bool :=
  match r with
  | Except.ok _ => true
  | Except.error _ => false

/-- The success counter of the batch loop in `main` (source lines 169–173):
starting at `0`, each file whose `resize_image_to_square` call returns
`True` increments it by one; a failure leaves it unchanged and the loop
continues with the next file. -/
def batchSuccessCount (rs : List (Except String Unit)) : ℕ :=
  rs.foldl (fun c r => if resize_image_outcome r then c + 1 else c) 0

/-- The final report of `main` (source line 175): successes out of total
discovered files. -/
def batchReport (rs : List (Except String Unit)) : ℕ × ℕ :=
  (batchSuccessCount rs, rs.length)

/-- Observable events of one run of `main`: reading file `i` during the
survey, or writing (overwriting in place) file `i` during the resize loop. -/
inductive Event where
  | surveyRead (i : ℕ)
  | write (i : ℕ)
deriving DecidableEq, Repr

/-- Whether an event mutates a file. -/
def isWrite : Event → Bool
  | Event.surveyRead _ => false
  | Event.write _ => true

/-- The event trace of `main` (source lines 143–175), with the environment
abstracted: `dirExists` is the `os.path.exists` test (line 146), `sizes` the
`get_image_size` results of the globbed files in glob order, `userYes`
whether the prompt answer was `y` (line 162). If the directory is missing,
`main` returns before touching any file; otherwise the survey reads every
file, and only when the surveyed size is non-zero and the user confirmed
does the resize loop write each file. -/
def mainEvents (dirExists : Bool) (sizes : List (Option (ℕ × ℕ))) (userYes : Bool) :
    List Event :=
  if dirExists = false then []
  else
    let surveyEvents := (List.range sizes.length).map Event.surveyRead
    if find_largest_dimension sizes = 0 then surveyEvents
    else if userYes = false then surveyEvents
    else surveyEvents ++ (List.range sizes.length).map Event.write

/-! ### Helper lemmas about the survey fold -/

/-- One step of the survey loop, as a function. -/
def surveyStep (acc : ℕ × ℕ) (o : Option (ℕ × ℕ)) : ℕ × ℕ :=
  match o with
  | none => acc
  | some wh => (max acc.1 wh.1, max acc.2 wh.2)

theorem find_largest_dimension_eq_foldl (sizes : List (Option (ℕ × ℕ))) :
    find_largest_dimension sizes
      = max (sizes.foldl surveyStep (0, 0)).1 (sizes.foldl surveyStep (0, 0)).2 := by
  rfl

theorem survey_fold_max (l : List (Option (ℕ × ℕ))) (a b : ℕ) :
    max (l.foldl surveyStep (a, b)).1 (l.foldl surveyStep (a, b)).2
      = (l.filterMap id).foldl (fun m wh => max m (max wh.1 wh.2)) (max a b) := by
  induction l generalizing a b with
  | nil => simp
  | cons o l ih =>
    cases o with
    | none => simpa [surveyStep] using ih a b
    | some wh =>
      simp only [List.foldl_cons, List.filterMap_cons, id, surveyStep]
      rw [ih]
      have hmax : max (max a wh.1) (max b wh.2) = max (max a b) (max wh.1 wh.2) := by
        omega
      rw [hmax]

theorem find_largest_dimension_spec (sizes : List (Option (ℕ × ℕ))) :
    find_largest_dimension sizes
      = (sizes.filterMap id).foldl (fun m wh => max m (max wh.1 wh.2)) 0 := by
  rw [find_largest_dimension_eq_foldl, survey_fold_max]
  norm_num

theorem maxfold_le_self (l : List (ℕ × ℕ)) (m : ℕ) :
    m ≤ l.foldl (fun m wh => max m (max wh.1 wh.2)) m := by
  induction l generalizing m with
  | nil => simp
  | cons wh l ih => exact le_trans (le_max_left m _) (ih _)

theorem find_largest_dimension_append_none (pre post : List (Option (ℕ × ℕ))) :
    find_largest_dimension (pre ++ none :: post) = find_largest_dimension (pre ++ post) := by
  simp [find_largest_dimension_spec, List.filterMap_append]

/-! ### Helper lemmas about the frequency tally -/

theorem pickMax_mem (cnt : Color → ℕ) (b : Color) (ks : List Color) :
    pickMax cnt b ks ∈ b :: ks := by
  induction ks generalizing b with
  | nil => simp [pickMax]
  | cons c cs ih =>
    simp only [pickMax]
    split_ifs with hbc
    · rcases List.mem_cons.mp (ih c) with h | h
      · rw [h]; exact List.mem_cons_of_mem b (List.mem_cons_self c cs)
      · exact List.mem_cons_of_mem b (List.mem_cons_of_mem c h)
    · rcases List.mem_cons.mp (ih b) with h | h
      · rw [h]; exact List.mem_cons_self b (c :: cs)
      · exact List.mem_cons_of_mem b (List.mem_cons_of_mem c h)

theorem pickMax_count_le (cnt : Color → ℕ) (b : Color) (ks : List Color) :
    ∀ c ∈ b :: ks, cnt c ≤ cnt (pickMax cnt b ks) := by
  induction ks generalizing b with
  | nil =>
    intro c hc
    rw [List.mem_singleton] at hc
    rw [hc]
    simp [pickMax]
  | cons d cs ih =>
    intro c hc
    simp only [pickMax]
    split_ifs with hbd
    · rcases List.mem_cons.mp hc with h | h
      · calc cnt c = cnt b := by rw [h]
          _ ≤ cnt d := le_of_lt hbd
          _ ≤ cnt (pickMax cnt d cs) := ih d d (List.mem_cons_self d cs)
      · exact ih d c h
    · rcases List.mem_cons.mp hc with h | h
      · exact ih b c (by rw [h]; exact List.mem_cons_self b cs)
      · rcases List.mem_cons.mp h with h2 | h2
        · calc cnt c = cnt d := by rw [h2]
            _ ≤ cnt b := le_of_not_lt hbd
            _ ≤ cnt (pickMax cnt b cs) := ih b b (List.mem_cons_self b cs)
        · exact ih b c (List.mem_cons_of_mem b h2)

theorem pickMax_split (cnt : Color → ℕ) (b : Color) (ks : List Color) :
    ∃ p q, b :: ks = p ++ pickMax cnt b ks :: q ∧
      ∀ x ∈ p, cnt x < cnt (pickMax cnt b ks) := by
  induction ks generalizing b with
  | nil => exact ⟨[], [], by simp [pickMax], by simp⟩
  | cons c cs ih =>
    simp only [pickMax]
    split_ifs with hbc
    · obtain ⟨p, q, hsplit, hlt⟩ := ih c
      refine ⟨b :: p, q, ?_, ?_⟩
      · rw [List.cons_append, ← hsplit]
      · intro x hx
        rcases List.mem_cons.mp hx with h | h
        · rw [h]
          exact lt_of_lt_of_le hbc (pickMax_count_le cnt c cs c (List.mem_cons_self c cs))
        · exact hlt x h
    · obtain ⟨p, q, hsplit, hlt⟩ := ih b
      cases p with
      | nil =>
        simp only [List.nil_append] at hsplit
        injection hsplit with h1 h2
        refine ⟨[], c :: cs, ?_, by simp⟩
        rw [List.nil_append, ← h1]
      | cons p0 ptl =>
        rw [List.cons_append] at hsplit
        injection hsplit with h1 h2
        have hblt : cnt b < cnt (pickMax cnt b cs) := by
          have hp0 := hlt p0 (List.mem_cons_self p0 ptl)
          rw [← h1] at hp0
          exact hp0
        refine ⟨b :: c :: ptl, q, ?_, ?_⟩
        · rw [List.cons_append, List.cons_append]
          conv_lhs => rw [h2]
        · intro x hx
          rcases List.mem_cons.mp hx with h | h
          · rw [h]; exact hblt
          · rcases List.mem_cons.mp h with h2 | h2
            · rw [h2]; exact lt_of_le_of_lt (le_of_not_lt hbc) hblt
            · exact hlt x (List.mem_cons_of_mem p0 h2)

theorem firstIdx_append_of_not_mem (c : Color) (p rest : List Color) (h : c ∉ p) :
    firstIdx c (p ++ rest) = p.length + firstIdx c rest := by
  induction p with
  | nil => simp
  | cons d p ih =>
    have hdc : ¬(d = c) := fun hdc => h (by rw [hdc]; exact List.mem_cons_self c p)
    simp only [List.cons_append, firstIdx, if_neg hdc, List.length_cons, List.append_eq]
    rw [ih (fun hc => h (List.mem_cons_of_mem d hc))]
    omega

theorem firstIdx_cons_self (c : Color) (l : List Color) :
    firstIdx c (c :: l) = 0 := by
  simp [firstIdx]

/-! ### Helper lemmas about the scale and offset arithmetic -/

theorem scaleFor_nonneg (S w h : ℕ) : 0 ≤ scaleFor S w h :=
  le_min (by positivity) (by positivity)

theorem scaleFor_pos (S w h : ℕ) (hS : 0 < S) (hw : 0 < w) (hh : 0 < h) :
    0 < scaleFor S w h :=
  lt_min (div_pos (by exact_mod_cast hS) (by exact_mod_cast hw))
    (div_pos (by exact_mod_cast hS) (by exact_mod_cast hh))

theorem scaleFor_eq_max (S w h : ℕ) (hw : 0 < w) (hh : 0 < h) :
    scaleFor S w h = (S : ℚ) / ((max w h : ℕ) : ℚ) := by
  unfold scaleFor
  rcases le_total w h with hwh | hwh
  · rw [max_eq_right hwh, min_eq_right]
    exact div_le_div_of_nonneg_left (by positivity) (by exact_mod_cast hw)
      (by exact_mod_cast hwh)
  · rw [max_eq_left hwh, min_eq_left]
    exact div_le_div_of_nonneg_left (by positivity) (by exact_mod_cast hh)
      (by exact_mod_cast hwh)

theorem new_width_cast (S w h : ℕ) :
    (new_width S w h : ℚ) = (⌊(w : ℚ) * scaleFor S w h⌋ : ℤ) := by
  have h0 : (0 : ℚ) ≤ (w : ℚ) * scaleFor S w h :=
    mul_nonneg (by positivity) (scaleFor_nonneg S w h)
  unfold new_width
  exact_mod_cast Int.toNat_of_nonneg (Int.floor_nonneg.mpr h0)

theorem new_height_cast (S w h : ℕ) :
    (new_height S w h : ℚ) = (⌊(h : ℚ) * scaleFor S w h⌋ : ℤ) := by
  have h0 : (0 : ℚ) ≤ (h : ℚ) * scaleFor S w h :=
    mul_nonneg (by positivity) (scaleFor_nonneg S w h)
  unfold new_height
  exact_mod_cast Int.toNat_of_nonneg (Int.floor_nonneg.mpr h0)

theorem new_width_eq_div (S w h : ℕ) (hw : 0 < w) (hh : 0 < h) :
    new_width S w h = w * S / max w h := by
  unfold new_width
  rw [scaleFor_eq_max S w h hw hh, mul_div_assoc']
  rw [Int.floor_toNat]
  rw [show ((w : ℚ) * (S : ℚ)) = ((w * S : ℕ) : ℚ) by push_cast; ring]
  exact Nat.floor_div_eq_div (w * S) (max w h)

theorem new_height_eq_div (S w h : ℕ) (hw : 0 < w) (hh : 0 < h) :
    new_height S w h = h * S / max w h := by
  unfold new_height
  rw [scaleFor_eq_max S w h hw hh, mul_div_assoc']
  rw [Int.floor_toNat]
  rw [show ((h : ℚ) * (S : ℚ)) = ((h * S : ℕ) : ℚ) by push_cast; ring]
  exact Nat.floor_div_eq_div (h * S) (max w h)

theorem new_width_le_S (S w h : ℕ) (hw : 0 < w) (hh : 0 < h) :
    new_width S w h ≤ S := by
  rw [new_width_eq_div S w h hw hh]
  calc w * S / max w h ≤ max w h * S / max w h :=
        Nat.div_le_div_right (Nat.mul_le_mul_right S (le_max_left w h))
    _ = S := Nat.mul_div_cancel_left S (lt_of_lt_of_le hw (le_max_left w h))

theorem new_height_le_S (S w h : ℕ) (hw : 0 < w) (hh : 0 < h) :
    new_height S w h ≤ S := by
  rw [new_height_eq_div S w h hw hh]
  calc h * S / max w h ≤ max w h * S / max w h :=
        Nat.div_le_div_right (Nat.mul_le_mul_right S (le_max_right w h))
    _ = S := Nat.mul_div_cancel_left S (lt_of_lt_of_le hh (le_max_right w h))

/-! ### Helper lemma about the sampling grid -/

theorem pyRange_left_mem (a b s : ℕ) (hab : a < b) (hs : 1 ≤ s) :
    a ∈ pyRange a b s := by
  unfold pyRange
  refine List.mem_map.mpr ⟨0, ?_, by simp⟩
  rw [List.mem_range]
  exact (Nat.le_div_iff_mul_le hs).mpr (by omega)

/-- Unfolding of the batch success counter: starting the fold at `c` adds
`c` to the number of successful results. -/
theorem batch_fold_shift (rs : List (Except String Unit)) (c : ℕ) :
    rs.foldl (fun c r => if resize_image_outcome r then c + 1 else c) c
      = c + (rs.filter (fun x => resize_image_outcome x)).length := by
  induction rs generalizing c with
  | nil => simp
  | cons r rs ih =>
    simp only [List.foldl_cons, List.filter_cons]
    cases hr : resize_image_outcome r with
    | true =>
      rw [if_pos rfl, if_pos rfl, ih]
      simp only [List.length_cons]
      omega
    | false =>
      rw [if_neg Bool.false_ne_true, if_neg Bool.false_ne_true]
      exact ih c

/-- Taking exactly the length of the left part of an append returns it. -/
theorem takeAppendOfLength {a : Type} (l1 l2 : List a) (n : ℕ)
    (h : l1.length = n) : (l1 ++ l2).take n = l1 := by
  subst h
  induction l1 with
  | nil => simp
  | cons x l ih => simp [ih]

/-- Survey events are never writes. -/
theorem anyIsWrite_map_surveyRead (l : List ℕ) :
    (l.map Event.surveyRead).any isWrite = false := by
  induction l with
  | nil => rfl
  | cons i l ih => simpa [isWrite] using ih

/-- A write list contains a write exactly when it is non-empty. -/
theorem anyIsWrite_map_write (l : List ℕ) :
    (l.map Event.write).any isWrite = !l.isEmpty := by
  cases l with
  | nil => rfl
  | cons i l => simp [isWrite]

theorem maxfold_ge (l : List (ℕ × ℕ)) (m : ℕ) :
    ∀ wh ∈ l, max wh.1 wh.2 ≤ l.foldl (fun m wh => max m (max wh.1 wh.2)) m := by
  induction l generalizing m with
  | nil => simp
  | cons x l ih =>
    intro wh hwh
    rcases List.mem_cons.mp hwh with h | h
    · rw [List.foldl_cons]
      exact le_trans (by rw [h]; exact le_max_right m _) (maxfold_le_self l _)
    · rw [List.foldl_cons]
      exact ih _ wh h

theorem maxfold_attained (l : List (ℕ × ℕ)) (m : ℕ) :
    l.foldl (fun m wh => max m (max wh.1 wh.2)) m = m
    ∨ ∃ wh ∈ l, l.foldl (fun m wh => max m (max wh.1 wh.2)) m = max wh.1 wh.2 := by
  induction l generalizing m with
  | nil => exact Or.inl rfl
  | cons x l ih =>
    rw [List.foldl_cons]
    rcases ih (max m (max x.1 x.2)) with h | ⟨wh, hmem, hwh⟩
    · rcases max_choice m (max x.1 x.2) with hm | hm
      · exact Or.inl (by rw [h, hm])
      · exact Or.inr ⟨x, List.mem_cons_self x l, by rw [h, hm]⟩
    · exact Or.inr ⟨wh, List.mem_cons_of_mem x hmem, hwh⟩

/-! ### Claim theorems -/

/-- C1: for every collection of image file paths (modelled by their decode
results in glob order), `find_largest_dimension` returns the maximum over
all successfully decoded images of `max(width, height)` (the fold of `max`
over the decoded sizes starting from `0`), a file that fails to decode is
skipped without affecting the survey, and the result is `0` when no image
decodes successfully. -/
theorem survey_returns_max_dimension (sizes : List (Option (ℕ × ℕ))) :
    find_largest_dimension sizes
        = (sizes.filterMap id).foldl (fun m wh => max m (max wh.1 wh.2)) 0
    ∧ (∀ wh ∈ sizes.filterMap id, max wh.1 wh.2 ≤ find_largest_dimension sizes)
    ∧ (sizes.filterMap id ≠ [] →
        ∃ wh ∈ sizes.filterMap id,
          find_largest_dimension sizes = max wh.1 wh.2)
    ∧ (∀ pre post, find_largest_dimension (pre ++ none :: post)
        = find_largest_dimension (pre ++ post))
    ∧ (sizes.filterMap id = [] → find_largest_dimension sizes = 0) := by
  refine ⟨find_largest_dimension_spec sizes, ?_, ?_, find_largest_dimension_append_none, ?_⟩
  · intro wh hwh
    rw [find_largest_dimension_spec]
    exact maxfold_ge _ 0 wh hwh
  · intro hne
    rcases maxfold_attained (sizes.filterMap id) 0 with h0 | ⟨wh, hmem, hwh⟩
    · cases hl : sizes.filterMap id with
      | nil => exact absurd hl hne
      | cons wh0 rest =>
        refine ⟨wh0, hl ▸ List.mem_cons_self wh0 rest, ?_⟩
        have hub : max wh0.1 wh0.2 ≤ find_largest_dimension sizes := by
          rw [find_largest_dimension_spec]
          exact maxfold_ge _ 0 wh0 (hl ▸ List.mem_cons_self wh0 rest)
        rw [find_largest_dimension_spec] at hub ⊢
        omega
    · exact ⟨wh, hmem, by rw [find_largest_dimension_spec]; exact hwh⟩
  · intro hempty
    rw [find_largest_dimension_spec, hempty]
    rfl

/-- Witness for C1 at a concrete input: a single undecodable file yields a
survey result of `0`. -/
theorem survey_returns_max_dimension_witness :
    find_largest_dimension [none, none] = 0 :=
  (survey_returns_max_dimension [none, none]).2.2.2.2 rfl

/-- C7: appending an image to the survey input never decreases the surveyed
size, and (decoded sizes being positive, as every decodable raster has
positive dimensions) the surveyed size is `0` exactly when no image decoded
successfully. -/
theorem survey_monotone_zero_iff (sizes : List (Option (ℕ × ℕ)))
    (x : Option (ℕ × ℕ))
    (hpos : ∀ wh ∈ sizes.filterMap id, 0 < max wh.1 wh.2) :
    find_largest_dimension sizes ≤ find_largest_dimension (sizes ++ [x])
    ∧ (find_largest_dimension sizes = 0 ↔ sizes.filterMap id = []) := by
  constructor
  · rw [find_largest_dimension_spec, find_largest_dimension_spec,
      List.filterMap_append, List.foldl_append]
    exact maxfold_le_self _ _
  · constructor
    · intro h0
      cases hl : sizes.filterMap id with
      | nil => rfl
      | cons wh rest =>
        exfalso
        have hw := hpos wh (by rw [hl]; exact List.mem_cons_self wh rest)
        have hge : max 0 (max wh.1 wh.2) ≤ find_largest_dimension sizes := by
          rw [find_largest_dimension_spec, hl, List.foldl_cons]
          exact maxfold_le_self rest _
        omega
    · intro hempty
      rw [find_largest_dimension_spec, hempty]
      rfl

/-- Witness for C7 at a concrete input: appending one image to an empty
survey. -/
theorem survey_monotone_zero_iff_witness :
    find_largest_dimension [] ≤ find_largest_dimension ([] ++ [some (2, 3)]) :=
  (survey_monotone_zero_iff [] (some (2, 3)) (by simp)).1

/-- C3: for every sampled view whose sample list is non-empty,
`detect_background_color` returns a color of the sample list having the
highest frequency in it; and when several colors share the maximum count it
returns, in sampling order, the first color attaining that count (its first
occurrence in the sample list is no later than that of any other color with
the maximal count — the stable tie-break of `Counter.most_common`). -/
theorem detect_background_color_most_common (v : SampleView)
    (h : samples v ≠ []) :
    detect_background_color v ∈ samples v
    ∧ (∀ c ∈ samples v,
        (samples v).count c ≤ (samples v).count (detect_background_color v))
    ∧ (∀ c ∈ samples v,
        (samples v).count c = (samples v).count (detect_background_color v) →
        firstIdx (detect_background_color v) (samples v) ≤ firstIdx c (samples v)) := by
  have hd : detect_background_color v = mostCommonColor (samples v) :=
    if_neg h
  obtain ⟨b, cs, hl⟩ : ∃ b cs, samples v = b :: cs := by
    cases hs : samples v with
    | nil => exact absurd hs h
    | cons b cs => exact ⟨b, cs, rfl⟩
  rw [hd, hl]
  simp only [mostCommonColor]
  refine ⟨pickMax_mem _ b cs, pickMax_count_le _ b cs, ?_⟩
  intro c hc hcount
  obtain ⟨p, q, hsplit, hlt⟩ := pickMax_split (fun x => (b :: cs).count x) b cs
  have hrnp : pickMax (fun x => (b :: cs).count x) b cs ∉ p := by
    intro hmem
    exact lt_irrefl _ (hlt _ hmem)
  have hcnp : c ∉ p := by
    intro hmem
    have hclt := hlt c hmem
    rw [hcount] at hclt
    exact lt_irrefl _ hclt
  generalize hgen : pickMax (fun x => List.count x (b :: cs)) b cs = r at hsplit hrnp
  rw [hsplit, firstIdx_append_of_not_mem r p _ hrnp,
    firstIdx_append_of_not_mem c p _ hcnp, firstIdx_cons_self]
  omega

/-- Witness for C3 at a concrete input: a 1×1 view with a single sample. -/
theorem detect_background_color_most_common_witness :
    detect_background_color ⟨1, 1, fun _ _ => (5, 5, 5)⟩
      ∈ samples ⟨1, 1, fun _ _ => (5, 5, 5)⟩ :=
  (detect_background_color_most_common ⟨1, 1, fun _ _ => (5, 5, 5)⟩ (by decide)).1

/-- C6: for every view whose sample list is empty (degenerate geometry),
`detect_background_color` returns white `(255, 255, 255)` instead of
failing. -/
theorem detect_background_color_empty_default (v : SampleView)
    (h : samples v = []) :
    detect_background_color v = (255, 255, 255) := by
  unfold detect_background_color
  rw [if_pos h]

/-- Witness for C6 at a concrete input: a 0×0 view samples nothing and gets
the white default. -/
theorem detect_background_color_empty_default_witness :
    detect_background_color ⟨0, 0, fun _ _ => (1, 2, 3)⟩ = (255, 255, 255) :=
  detect_background_color_empty_default ⟨0, 0, fun _ _ => (1, 2, 3)⟩ (by decide)

/-- C10: for every view with positive width and height, the sampling grid
collects at least one pixel (the bottom-right corner region always contains
its top-left grid point, which is in bounds), so the sample list is
non-empty and `detect_background_color` takes the tally branch, never the
white-default branch. -/
theorem samples_nonempty_of_pos (v : SampleView)
    (hw : 1 ≤ v.width) (hh : 1 ≤ v.height) :
    samples v ≠ []
    ∧ detect_background_color v = mostCommonColor (samples v) := by
  have hx : v.width * 2 / 3 < v.width :=
    (Nat.div_lt_iff_lt_mul (by norm_num)).mpr (by omega)
  have hy : v.height * 2 / 3 < v.height :=
    (Nat.div_lt_iff_lt_mul (by norm_num)).mpr (by omega)
  have hmem : v.pix (v.width * 2 / 3) (v.height * 2 / 3) ∈ samples v := by
    unfold samples
    refine List.mem_flatMap.mpr
      ⟨(v.width * 2 / 3, v.height * 2 / 3, v.width, v.height), ?_, ?_⟩
    · simp [regions]
    · unfold sampleRegion
      refine List.mem_flatMap.mpr ⟨v.height * 2 / 3, ?_, ?_⟩
      · exact pyRange_left_mem _ _ _ hy (le_max_left 1 _)
      · refine List.mem_flatMap.mpr ⟨v.width * 2 / 3, ?_, ?_⟩
        · exact pyRange_left_mem _ _ _ hx (le_max_left 1 _)
        · rw [if_pos ⟨hx, hy⟩]
          exact List.mem_singleton.mpr rfl
  have hne : samples v ≠ [] := by
    intro hempty
    rw [hempty] at hmem
    exact List.not_mem_nil _ hmem
  exact ⟨hne, if_neg hne⟩

/-- Witness for C10 at a concrete input: a 1×1 view has a non-empty sample
list. -/
theorem samples_nonempty_of_pos_witness :
    samples ⟨1, 1, fun _ _ => (7, 7, 7)⟩ ≠ [] :=
  (samples_nonempty_of_pos ⟨1, 1, fun _ _ => (7, 7, 7)⟩ (by decide) (by decide)).1

/-- C2: for every successfully processed image (positive source dimensions),
the output image is exactly `S × S`; the paste offsets are
`((S - new_width) / 2, (S - new_height) / 2)` by integer floor division; on
each axis the two paddings sum with the content size to `S`, differ by at
most `1`, and when `S` minus the content size is odd the extra pixel of
padding lies on the bottom/right side. -/
theorem resize_output_square_centered (S w h : ℕ) (bg : Color)
    (content : ℕ → ℕ → Color) (hw : 1 ≤ w) (hh : 1 ≤ h) :
    (resize_image_to_square S w h bg content).width = S
    ∧ (resize_image_to_square S w h bg content).height = S
    ∧ x_offset S w h = (S - new_width S w h) / 2
    ∧ y_offset S w h = (S - new_height S w h) / 2
    ∧ x_offset S w h + new_width S w h + (S - new_width S w h - x_offset S w h) = S
    ∧ x_offset S w h ≤ S - new_width S w h - x_offset S w h
    ∧ (S - new_width S w h - x_offset S w h) - x_offset S w h ≤ 1
    ∧ ((S - new_width S w h) % 2 = 1 →
        S - new_width S w h - x_offset S w h = x_offset S w h + 1)
    ∧ y_offset S w h + new_height S w h + (S - new_height S w h - y_offset S w h) = S
    ∧ y_offset S w h ≤ S - new_height S w h - y_offset S w h
    ∧ (S - new_height S w h - y_offset S w h) - y_offset S w h ≤ 1
    ∧ ((S - new_height S w h) % 2 = 1 →
        S - new_height S w h - y_offset S w h = y_offset S w h + 1) := by
  have hnw := new_width_le_S S w h hw hh
  have hnh := new_height_le_S S w h hw hh
  have hx : x_offset S w h = (S - new_width S w h) / 2 := rfl
  have hy : y_offset S w h = (S - new_height S w h) / 2 := rfl
  refine ⟨rfl, rfl, rfl, rfl, ?_, ?_, ?_, ?_, ?_, ?_, ?_, ?_⟩ <;> omega

/-- Witness for C2 at a concrete input. -/
theorem resize_output_square_centered_witness :
    (resize_image_to_square 3 2 1 (0, 0, 0) (fun _ _ => (0, 0, 0))).width = 3 :=
  (resize_output_square_centered 3 2 1 (0, 0, 0) (fun _ _ => (0, 0, 0))
    (by decide) (by decide)).1

/-- C4: for every source size with positive width and height and every
positive target size `S`, the compositor's scale factor is
`min(S / width, S / height)` and the new dimensions are the floors
(truncations) of `width * scale` and `height * scale`, each within one pixel
below the exact scaled value; the exact scaled dimensions are in the source's
width/height ratio, so the truncated content deviates from that ratio by at
most the one pixel lost per axis. -/
theorem resize_scale_truncation (S w h : ℕ) (hS : 1 ≤ S) (hw : 1 ≤ w)
    (hh : 1 ≤ h) :
    scaleFor S w h = min ((S : ℚ) / (w : ℚ)) ((S : ℚ) / (h : ℚ))
    ∧ (new_width S w h : ℚ) ≤ (w : ℚ) * scaleFor S w h
    ∧ (w : ℚ) * scaleFor S w h < (new_width S w h : ℚ) + 1
    ∧ (new_height S w h : ℚ) ≤ (h : ℚ) * scaleFor S w h
    ∧ (h : ℚ) * scaleFor S w h < (new_height S w h : ℚ) + 1
    ∧ ((w : ℚ) * scaleFor S w h) / ((h : ℚ) * scaleFor S w h)
        = (w : ℚ) / (h : ℚ) := by
  have hsc : 0 < scaleFor S w h := scaleFor_pos S w h hS hw hh
  refine ⟨rfl, ?_, ?_, ?_, ?_, ?_⟩
  · rw [new_width_cast]
    exact Int.floor_le _
  · rw [new_width_cast]
    exact Int.lt_floor_add_one _
  · rw [new_height_cast]
    exact Int.floor_le _
  · rw [new_height_cast]
    exact Int.lt_floor_add_one _
  · exact mul_div_mul_right _ _ (ne_of_gt hsc)

/-- Witness for C4 at a concrete input. -/
theorem resize_scale_truncation_witness :
    scaleFor 3 2 1 = min ((3 : ℚ) / (2 : ℚ)) ((3 : ℚ) / (1 : ℚ)) :=
  (resize_scale_truncation 3 2 1 (by decide) (by decide) (by decide)).1

/-- C5: for every processed input (in particular one that carried an alpha
channel), the output image is in mode `RGB` — no alpha channel, fully
opaque — and every canvas pixel outside the pasted content rectangle equals
the inferred background color. -/
theorem resize_opaque_outside_content (S w h : ℕ) (v : SampleView)
    (content : ℕ → ℕ → Color) (x y : ℕ) (hx : x < S) (hy : y < S)
    (hout : ¬(x_offset S w h ≤ x ∧ x < x_offset S w h + new_width S w h ∧
              y_offset S w h ≤ y ∧ y < y_offset S w h + new_height S w h)) :
    (resize_image_to_square S w h (detect_background_color v) content).mode = "RGB"
    ∧ (resize_image_to_square S w h (detect_background_color v) content).pix x y
        = detect_background_color v := by
  refine ⟨rfl, ?_⟩
  simp only [resize_image_to_square]
  exact if_neg hout

/-- Witness for C5 at a concrete input: the pixel just below a content
rectangle of height 1 on a 2×2 canvas. -/
theorem resize_opaque_outside_content_witness :
    (resize_image_to_square 2 2 1
        (detect_background_color ⟨1, 1, fun _ _ => (9, 9, 9)⟩)
        (fun _ _ => (0, 0, 0))).pix 0 1
      = detect_background_color ⟨1, 1, fun _ _ => (9, 9, 9)⟩ :=
  (resize_opaque_outside_content 2 2 1 ⟨1, 1, fun _ _ => (9, 9, 9)⟩
    (fun _ _ => (0, 0, 0)) 0 1 (by decide) (by decide)
    (by
      have h1 : new_height 2 2 1 = 1 := by
        rw [new_height_eq_div 2 2 1 (by norm_num) (by norm_num)]
        decide
      have h2 : y_offset 2 2 1 = 0 := by
        unfold y_offset
        rw [h1]
      intro hcon
      obtain ⟨-, -, -, h4⟩ := hcon
      rw [h2, h1] at h4
      omega)).2

/-- C8: no input file is written before the survey over all files has
completed (every write event in the trace of `main` sits at a position at or
after the full survey); the trace contains a write exactly when the
directory exists, the surveyed size is non-zero, and the user confirmed —
so an aborted batch performs zero writes; and for an empty input directory
the survey returns `0` and the trace is empty. -/
theorem main_survey_before_any_write (d u : Bool)
    (s : List (Option (ℕ × ℕ))) :
    ((mainEvents d s u).take s.length).all (fun e => !(isWrite e)) = true
    ∧ (mainEvents d s u).any isWrite
        = (d && !(decide (find_largest_dimension s = 0)) && u)
    ∧ mainEvents d ([] : List (Option (ℕ × ℕ))) u = []
    ∧ find_largest_dimension ([] : List (Option (ℕ × ℕ))) = 0 := by
  have hempty : mainEvents d ([] : List (Option (ℕ × ℕ))) u = [] := by
    cases d with
    | false => rfl
    | true => simp [mainEvents, find_largest_dimension]
  cases d with
  | false => exact ⟨by simp [mainEvents], by simp [mainEvents], hempty, rfl⟩
  | true =>
    refine ⟨?_, ?_, hempty, rfl⟩
    · by_cases h0 : find_largest_dimension s = 0
      · simp [mainEvents, h0, List.all_eq_true]
        intro e he
        have he2 := List.mem_of_mem_take he
        obtain ⟨i, -, hi⟩ := List.mem_map.mp he2
        rw [← hi]
        rfl
      · by_cases hu : u = false
        · simp [mainEvents, h0, hu, List.all_eq_true]
          intro e he
          have he2 := List.mem_of_mem_take he
          obtain ⟨i, -, hi⟩ := List.mem_map.mp he2
          rw [← hi]
          rfl
        · simp only [mainEvents, if_neg (by simp : ¬(true = false)), if_neg h0,
            if_neg hu]
          rw [takeAppendOfLength _ _ _ (by simp), List.all_eq_true]
          intro e he
          obtain ⟨i, -, hi⟩ := List.mem_map.mp he
          rw [← hi]
          rfl

    · by_cases h0 : find_largest_dimension s = 0
      · simp [mainEvents, h0, anyIsWrite_map_surveyRead]
      · by_cases hu : u = false
        · simp [mainEvents, h0, hu, anyIsWrite_map_surveyRead]
        · have hu2 : u = true := by
            cases u
            · exact absurd rfl hu
            · rfl
          have hne : s ≠ [] := by
            intro hs
            rw [hs] at h0
            exact h0 rfl
          simp only [mainEvents, if_neg (by simp : ¬(true = false)), if_neg h0,
            if_neg hu]
          rw [List.any_append, anyIsWrite_map_surveyRead, Bool.false_or, hu2,
            decide_eq_false h0, anyIsWrite_map_write]
          cases s with
          | nil => exact absurd rfl hne
          | cons s0 stl => simp [List.range_succ]

/-- C9: every per-image error is caught inside `resize_image_to_square`,
which then returns `False`; a failing image leaves the success counter
unchanged and the loop continues with the remaining images; each success
adds one; the counter equals the number of successful images; and the batch
reports successes out of the total number of discovered images. -/
theorem batch_error_caught_and_continues (rs : List (Except String Unit))
    (e : String) (r : Except String Unit) :
    resize_image_outcome (Except.error e) = false
    ∧ batchSuccessCount (Except.error e :: rs) = batchSuccessCount rs
    ∧ batchSuccessCount (r :: rs)
        = (if resize_image_outcome r then 1 else 0) + batchSuccessCount rs
    ∧ batchSuccessCount rs
        = (rs.filter (fun x => resize_image_outcome x)).length
    ∧ batchSuccessCount rs ≤ rs.length
    ∧ batchReport rs = (batchSuccessCount rs, rs.length) := by
  have hc : ∀ l : List (Except String Unit),
      batchSuccessCount l = (l.filter (fun x => resize_image_outcome x)).length := by
    intro l
    unfold batchSuccessCount
    rw [batch_fold_shift l 0, Nat.zero_add]
  refine ⟨rfl, ?_, ?_, hc rs, ?_, rfl⟩
  · rw [hc, hc]
    simp [resize_image_outcome]
  · rw [hc, hc]
    cases hr : resize_image_outcome r <;> simp [hr] <;> omega
  · rw [hc]
    exact List.length_filter_le _ _

end ResizeImages
